import Mathlib

/-
Verification of the dorado-be waitlist backend (main.go) against its
natural-language specification.

Modelling conventions:

* Go strings are modelled as `List Char` (sequences of Unicode runes).  Go's
  `len` on strings counts UTF-8 bytes, modelled by `utf8Len` (the sum of the
  UTF-8 byte sizes of the runes).  Inputs that are not valid UTF-8 byte
  sequences are outside the model; `net/mail` rejects invalid UTF-8 wherever
  it can reach an accepted address, so the success behaviour is unaffected.
* `validateEmail` (main.go:70-121) is embedded directly.  Its call to the
  standard library `net/mail.ParseAddress` is embedded from the Go standard
  library source (`net/mail/message.go`, modern Go 1.2x: quoted-string and
  dot-atom local parts, dot-atom domains without domain literals, display
  names, RFC 5322 comments, group syntax, RFC 2047 encoded words in display
  names).  Display-name *values* are computed by Go but discarded by
  `validateEmail`; the embedding keeps their effect on parse success/failure
  (which `validateEmail` observes) and drops the value itself.
* `strings.ToLower` applies the Unicode simple lowercase mapping rune-wise;
  it is modelled on the ASCII range (`Char.toLower`, A-Z ↦ a-z) with other
  runes left unchanged, which is exact for all ASCII addresses.
* `strings.TrimSpace` trims runes satisfying `unicode.IsSpace`, modelled
  exactly by `goIsSpace` (the Unicode White_Space code points).
* The HTTP handler for POST /users (main.go:207-238) is modelled after JSON
  binding has succeeded, with the gorm `db.Create` call abstracted as a
  function returning an optional error message.
-/

/-! ## Go string primitives -/

abbrev GoStr := List Char

/-- Go `len` on a string counts UTF-8 bytes. -/
def utf8Len (s : GoStr) : Nat := s.foldr (fun c n => c.utf8Size + n) 0

/-- `unicode.IsSpace`: the Unicode White_Space code points. -/
def goIsSpace (c : Char) : Bool :=
  let n := c.toNat
  decide ((9 ≤ n ∧ n ≤ 13) ∨ n = 32 ∨ n = 0x85 ∨ n = 0xA0 ∨ n = 0x1680 ∨
    (0x2000 ≤ n ∧ n ≤ 0x200A) ∨ n = 0x2028 ∨ n = 0x2029 ∨ n = 0x202F ∨
    n = 0x205F ∨ n = 0x3000)

/-- Left half of `strings.TrimSpace`. -/
def goTrimLeft (s : GoStr) : GoStr := s.dropWhile goIsSpace

/-- Right half of `strings.TrimSpace`. -/
def goTrimRight (s : GoStr) : GoStr := (s.reverse.dropWhile goIsSpace).reverse

/-- `strings.TrimSpace`: drop leading and trailing Unicode white space. -/
def goTrimSpace (s : GoStr) : GoStr := goTrimRight (goTrimLeft s)

/-- `strings.Split(s, "@")`. -/
def splitOnAt : GoStr → List GoStr
  | [] => [[]]
  | c :: rest =>
    if c = '@' then [] :: splitOnAt rest
    else
      match splitOnAt rest with
      | p :: ps => (c :: p) :: ps
      | [] => [[c]]

/-! ## net/mail character classes (net/mail/message.go) -/

/-- `isVchar`: visible (printing) character or multibyte rune. -/
def isVchar (c : Char) : Bool :=
  decide ((0x21 ≤ c.toNat ∧ c.toNat ≤ 0x7E) ∨ 0x80 ≤ c.toNat)

/-- `isWSP`: space or tab. -/
def isWSP (c : Char) : Bool := c == ' ' || c == '\t'

/-- `isQtext`: any vchar except backslash and double quote. -/
def isQtext (c : Char) : Bool :=
  if c == '\\' || c == '"' then false else isVchar c

/-- `isAtext`: RFC 5322 atext; period included iff `dot`. -/
def isAtext (dot : Bool) (c : Char) : Bool :=
  if c == '.' then dot
  else if c == '(' || c == ')' || c == '<' || c == '>' || c == '[' || c == ']' ||
      c == ':' || c == ';' || c == '@' || c == '\\' || c == ',' || c == '"' then
    false
  else isVchar c

/-- `addrParser.skipSpace`: `strings.TrimLeft(p.s, " \t")`. -/
def skipSpace (s : GoStr) : GoStr := s.dropWhile isWSP

/-- Whether a string contains two adjacent periods (`strings.Contains(atom, "..")`). -/
def hasDoubleDot : GoStr → Bool
  | c1 :: c2 :: rest => (c1 == '.' && c2 == '.') || hasDoubleDot (c2 :: rest)
  | _ => false

/-- `addrParser.consumeAtom`: take the longest run of atext characters, then
apply the dot-structure checks unless permissive. -/
def consumeAtom (dot permissive : Bool) (s : GoStr) : Option (GoStr × GoStr) :=
  if (s.takeWhile (isAtext dot)).isEmpty then none
  else if !permissive &&
      ((s.takeWhile (isAtext dot)).head? == some '.' ||
        hasDoubleDot (s.takeWhile (isAtext dot)) ||
        (s.takeWhile (isAtext dot)).getLast? == some '.') then
    none
  else some (s.takeWhile (isAtext dot), s.dropWhile (isAtext dot))

/-- Loop of `addrParser.consumeQuotedString` after the opening quote, with the
escaped flag; returns the decoded content and the rest after the closing
quote. -/
def consumeQSLoop : GoStr → Bool → Option (GoStr × GoStr)
  | [], _ => none
  | r :: rest, true =>
    if isVchar r || isWSP r then
      match consumeQSLoop rest false with
      | some (q, st) => some (r :: q, st)
      | none => none
    else none
  | r :: rest, false =>
    if isQtext r || isWSP r then
      match consumeQSLoop rest false with
      | some (q, st) => some (r :: q, st)
      | none => none
    else if r == '"' then some ([], rest)
    else if r == '\\' then consumeQSLoop rest true
    else none

/-- `addrParser.consumeQuotedString` (caller guarantees the leading quote). -/
def consumeQuotedString : GoStr → Option (GoStr × GoStr)
  | c :: rest => if c == '"' then consumeQSLoop rest false else none
  | [] => none

/-- Loop of `addrParser.consumeComment` (the opening parenthesis is already
consumed, `depth` starts at 1): collect the comment text, where a backslash
escapes the next character and parentheses nest.  Returns the comment and the
rest after the matching closing parenthesis. -/
def consumeCommentLoop : GoStr → Nat → GoStr → Option (GoStr × GoStr)
  | [], _, _ => none
  | c :: rest, depth, acc =>
    if c == '\\' then
      match rest with
      | c2 :: rest2 => consumeCommentLoop rest2 depth (c2 :: acc)
      | [] => none
    else if c == '(' then consumeCommentLoop rest (depth + 1) ('(' :: acc)
    else if c == ')' then
      (if depth = 1 then some (acc.reverse, rest)
       else consumeCommentLoop rest (depth - 1) (')' :: acc))
    else consumeCommentLoop rest depth (c :: acc)

/-! ## RFC 2047 encoded words (mime.WordDecoder.Decode as used by net/mail)

net/mail substitutes a CharsetReader that errors on every charset the mime
package does not handle natively; a phrase or comment word therefore aborts
the whole parse exactly when it is a structurally valid encoded-word whose
content decodes but whose charset is not utf-8, iso-8859-1 or us-ascii
(case-insensitively).  All other decode errors are ignored. -/

/-- Hex digit accepted by `mime.fromHex` (0-9, A-F, and, leniently, a-f). -/
def isHexDigit (c : Char) : Bool :=
  decide (('0' ≤ c ∧ c ≤ '9') ∨ ('A' ≤ c ∧ c ≤ 'F') ∨ ('a' ≤ c ∧ c ≤ 'f'))

/-- Whether `mime.qDecode` succeeds on the text of a Q-encoded word. -/
def qDecodeOk : GoStr → Bool
  | [] => true
  | '_' :: r => qDecodeOk r
  | '=' :: a :: b :: r => isHexDigit a && isHexDigit b && qDecodeOk r
  | '=' :: _ => false
  | c :: r =>
    (decide ((0x20 ≤ c.toNat ∧ c.toNat ≤ 0x7E) ∨ c.toNat = 10 ∨ c.toNat = 13 ∨
      c.toNat = 9)) && qDecodeOk r

/-- Standard base64 alphabet character. -/
def isB64Char (c : Char) : Bool :=
  decide (('A' ≤ c ∧ c ≤ 'Z') ∨ ('a' ≤ c ∧ c ≤ 'z') ∨ ('0' ≤ c ∧ c ≤ '9') ∨
    c = '+' ∨ c = '/')

/-- Quanta check for `base64.StdEncoding.DecodeString`: groups of four
alphabet characters, with `=` padding allowed only at the last one or two
positions of the final quantum. -/
def b64Quanta : GoStr → Bool
  | [] => true
  | a :: b :: c :: d :: rest =>
    if rest.isEmpty then
      isB64Char a && isB64Char b &&
        ((isB64Char c && isB64Char d) || (isB64Char c && d == '=') ||
          (c == '=' && d == '='))
    else isB64Char a && isB64Char b && isB64Char c && isB64Char d && b64Quanta rest
  | _ => false

/-- Whether `base64.StdEncoding.DecodeString` succeeds (newlines ignored). -/
def b64Ok (s : GoStr) : Bool :=
  b64Quanta (s.filter (fun c => !(c == '\r' || c == '\n')))

/-- ASCII-case-insensitive comparison with a fixed lower-case ASCII name
(`strings.EqualFold` restricted to the charset names net/mail compares). -/
def eqFoldAscii (s : GoStr) (t : String) : Bool :=
  s.map Char.toLower == t.toList

/-- Charsets converted natively by `mime.WordDecoder` (no CharsetReader). -/
def charsetKnown (cs : GoStr) : Bool :=
  eqFoldAscii cs "utf-8" || eqFoldAscii cs "iso-8859-1" || eqFoldAscii cs "us-ascii"

/-- Strip a trailing `?=` from an encoded-word body. -/
def stripSuffixQE (s : GoStr) : Option GoStr :=
  match s.reverse with
  | '=' :: '?' :: rest => some rest.reverse
  | _ => none

/-- Whether `addrParser.decodeRFC2047Word` returns a (parse-aborting) charset
error on the word: the word must have the full `=?charset?enc?text?=`
structure with exactly four question marks, a nonempty charset, a one-byte
encoding whose text decodes, and a charset outside the natively handled
set. -/
def decodeWordFatal (w : GoStr) : Bool :=
  if utf8Len w < 8 then false
  else if w.countP (fun c => c == '?') ≠ 4 then false
  else
    match w with
    | '=' :: '?' :: body =>
      match stripSuffixQE body with
      | none => false
      | some mid =>
        let charset := mid.takeWhile (fun c => !(c == '?'))
        let rest1 := (mid.dropWhile (fun c => !(c == '?'))).drop 1
        let enc := rest1.takeWhile (fun c => !(c == '?'))
        let text := (rest1.dropWhile (fun c => !(c == '?'))).drop 1
        if charset.isEmpty then false
        else if utf8Len enc ≠ 1 then false
        else
          let contentOk :=
            match enc with
            | ['B'] => b64Ok text
            | ['b'] => b64Ok text
            | ['Q'] => qDecodeOk text
            | ['q'] => qDecodeOk text
            | _ => false
          contentOk && !charsetKnown charset
    | _ => false

/-! ## net/mail parser -/

/-- `strings.FieldsFunc` splitting on space and tab (used on comment text). -/
def fieldsAux : GoStr → GoStr → List GoStr
  | [], acc => if acc.isEmpty then [] else [acc.reverse]
  | c :: r, acc =>
    if c == ' ' || c == '\t' then
      (if acc.isEmpty then fieldsAux r [] else acc.reverse :: fieldsAux r [])
    else fieldsAux r (c :: acc)

def goFieldsSpaceTab (s : GoStr) : List GoStr := fieldsAux s []

/-- `addrParser.consumeDisplayNameComment`: consume a parenthesised comment
and RFC-2047-decode its words; the decoded value feeds only the (discarded)
display name, so only the error effect is kept. -/
def consumeDisplayNameComment (s : GoStr) : Option GoStr :=
  match s with
  | c :: rest =>
    if c == '(' then
      match consumeCommentLoop rest 1 [] with
      | none => none
      | some (comment, st) =>
        if (goFieldsSpaceTab comment).all (fun w => !decodeWordFatal w) then some st
        else none
    else none
  | [] => none

/-- Fueled loop of `addrParser.skipCFWS`: skip folding white space and
parenthesised comments.  Every iteration consumes at least two characters,
so fuel `length + 1` never runs out. -/
def skipCFWSAux : Nat → GoStr → Option GoStr
  | 0, _ => none
  | f + 1, s =>
    match skipSpace s with
    | c :: rest =>
      if c == '(' then
        match consumeCommentLoop rest 1 [] with
        | some (_, st) => skipCFWSAux f st
        | none => none
      else some (c :: rest)
    | [] => some []

def skipCFWS (s : GoStr) : Option GoStr := skipCFWSAux (s.length + 1) s

/-- Fueled loop of `addrParser.consumePhrase`.  The phrase value feeds only
the display name and the two failing branches of `parseAddress`, so the
embedding keeps only whether at least one word was read (`anyW`) and the
final parser state.  A word-level error aborts with an error only when no
word has been read yet; otherwise the loop ends successfully at the current
state (with an RFC 2047 charset error, Go has already consumed the offending
atom). -/
def consumePhraseLoop : Nat → Bool → GoStr → Option GoStr
  | 0, _, _ => none
  | f + 1, anyW, s =>
    match (if anyW then skipCFWS s else some s) with
    | none => none
    | some s1 =>
      match skipSpace s1 with
      | [] => some []
      | c :: cs =>
        if c == '"' then
          match consumeQuotedString (c :: cs) with
          | some (_, rest) => consumePhraseLoop f true rest
          | none => if anyW then some (c :: cs) else none
        else
          match consumeAtom true true (c :: cs) with
          | some (atom, rest) =>
            if decodeWordFatal atom then
              (if anyW then some rest else none)
            else consumePhraseLoop f true rest
          | none => if anyW then some (c :: cs) else none

def consumePhrase (s : GoStr) : Option GoStr :=
  consumePhraseLoop (s.length + 1) false s

/-- `addrParser.consumeAddrSpec`: local part (quoted string or dot-atom),
`@`, dot-atom domain.  On failure the Go parser restores its original state;
callers of the embedding keep the original state themselves. -/
def consumeAddrSpec (s : GoStr) : Option (GoStr × GoStr) :=
  match skipSpace s with
  | [] => none
  | c :: t =>
    match (if c == '"' then
        (match consumeQuotedString (c :: t) with
         | some (lp, rest) => if lp.isEmpty then none else some (lp, rest)
         | none => none)
      else consumeAtom true false (c :: t)) with
    | none => none
    | some (lp, s2) =>
      match s2 with
      | c2 :: s3 =>
        if c2 == '@' then
          match skipSpace s3 with
          | [] => none
          | c4 :: s4 =>
            match consumeAtom true false (c4 :: s4) with
            | some (dom, s5) => some (lp ++ '@' :: dom, s5)
            | none => none
        else none
      | [] => none

/-- `addrParser.parseAddress` with `handleGroup = false` (used inside group
lists): a bare addr-spec with optional trailing display-name comment, or a
display-name phrase followed by an angle-addr. -/
def parseAddressBase (s : GoStr) : Option (GoStr × GoStr) :=
  match skipSpace s with
  | [] => none
  | c0 :: rest0 =>
    match consumeAddrSpec (c0 :: rest0) with
    | some (spec, s1) =>
      match skipSpace s1 with
      | c :: r =>
        if c == '(' then
          match consumeDisplayNameComment (c :: r) with
          | some s3 => some (spec, s3)
          | none => none
        else some (spec, c :: r)
      | [] => some (spec, [])
    | none =>
      match (if c0 == '<' then some (c0 :: rest0) else consumePhrase (c0 :: rest0)) with
      | none => none
      | some s1 =>
        match skipSpace s1 with
        | c1 :: s2 =>
          if c1 == '<' then
            match consumeAddrSpec s2 with
            | some (spec, s3) =>
              match s3 with
              | c3 :: s4 => if c3 == '>' then some (spec, s4) else none
              | [] => none
            | none => none
          else none
        | [] => none

/-- Fueled loop of `addrParser.consumeGroupList` for a nonempty group. -/
def consumeGroupListLoop : Nat → List GoStr → GoStr → Option (List GoStr × GoStr)
  | 0, _, _ => none
  | f + 1, acc, s =>
    match parseAddressBase (skipSpace s) with
    | none => none
    | some (addr, s2) =>
      match skipCFWS s2 with
      | none => none
      | some s3 =>
        match s3 with
        | c3 :: s4 =>
          if c3 == ';' then
            match skipCFWS s4 with
            | some s5 => some (acc ++ [addr], s5)
            | none => none
          else if c3 == ',' then consumeGroupListLoop f (acc ++ [addr]) s4
          else none
        | [] => none

/-- `addrParser.consumeGroupList` (the colon is already consumed). -/
def consumeGroupList (s : GoStr) : Option (List GoStr × GoStr) :=
  match skipSpace s with
  | c :: s2 =>
    if c == ';' then
      match skipCFWS s2 with
      | some s3 => some ([], s3)
      | none => none
    else consumeGroupListLoop ((c :: s2).length + 1) [] (c :: s2)
  | [] => consumeGroupListLoop 1 [] []

/-- `addrParser.parseAddress` with `handleGroup = true`, as invoked by
`parseSingleAddress`: like `parseAddressBase` but a display-name phrase may
instead introduce a `group: ... ;` list.  As in Go, white space is skipped
between the display-name phrase and the colon or angle bracket. -/
def parseAddressTop (s : GoStr) : Option (List GoStr × GoStr) :=
  match skipSpace s with
  | [] => none
  | c0 :: rest0 =>
    match consumeAddrSpec (c0 :: rest0) with
    | some (spec, s1) =>
      match skipSpace s1 with
      | c :: r =>
        if c == '(' then
          match consumeDisplayNameComment (c :: r) with
          | some s3 => some ([spec], s3)
          | none => none
        else some ([spec], c :: r)
      | [] => some ([spec], [])
    | none =>
      match (if c0 == '<' then some (c0 :: rest0) else consumePhrase (c0 :: rest0)) with
      | none => none
      | some s1 =>
        match skipSpace s1 with
        | c1 :: s2 =>
          if c1 == ':' then consumeGroupList s2
          else if c1 == '<' then
            match consumeAddrSpec s2 with
            | some (spec, s3) =>
              match s3 with
              | c3 :: s4 => if c3 == '>' then some ([spec], s4) else none
              | [] => none
            | none => none
          else none
        | [] => none

/-- `addrParser.parseSingleAddress` = `mail.ParseAddress`: parse one address,
require only trailing CFWS, and require exactly one mailbox.  Returns the
`Address.Address` field (the display name is discarded by `validateEmail`). -/
def goParseAddress (s : GoStr) : Option GoStr :=
  match parseAddressTop s with
  | none => none
  | some (addrs, s1) =>
    match skipCFWS s1 with
    | none => none
    | some s2 =>
      if !s2.isEmpty then none
      else
        match addrs with
        | [a] => some a
        | _ => none

/-! ## validateEmail (main.go:70-121) -/

/-- `ValidationError` (main.go:123-127). -/
structure ValidationError where
  field : String
  message : String
deriving DecidableEq

/-- `(*ValidationError).Error()` (main.go:129-131). -/
def validationErrorString (e : ValidationError) : String := e.message

def msgEmpty : String := "email cannot be empty"
def msgTooLong : String := "email is too long (max 254 characters)"
def msgFormat : String := "invalid email format"
def msgLocal : String := "email local part is invalid"
def msgDomain : String := "email domain is invalid"
def msgNoDot : String := "email domain must contain at least one dot"

/-- Steps of `validateEmail` after the initial `strings.TrimSpace`
reassignment of `email`: empty check, byte-length check, `mail.ParseAddress`,
split on `@`, local-part and domain checks, lowercase. -/
def validateEmailTrimmed (email : GoStr) : GoStr × Option ValidationError :=
  if email.isEmpty then ([], some ⟨"email", msgEmpty⟩)
  else if 254 < utf8Len email then ([], some ⟨"email", msgTooLong⟩)
  else
    match goParseAddress email with
    | none => ([], some ⟨"email", msgFormat⟩)
    | some addr =>
      match splitOnAt addr with
      | [localPart, domain] =>
        if utf8Len localPart == 0 || 64 < utf8Len localPart then
          ([], some ⟨"email", msgLocal⟩)
        else if utf8Len domain == 0 || 255 < utf8Len domain then
          ([], some ⟨"email", msgDomain⟩)
        else if !(domain.contains '.') then ([], some ⟨"email", msgNoDot⟩)
        else (addr.map Char.toLower, none)
      | _ => ([], some ⟨"email", msgFormat⟩)

/-- `validateEmail` (main.go:70-121).  Returns the Go pair `(string, error)`:
`("", some e)` on failure and `(canonical, none)` on success. -/
def validateEmail (input : GoStr) : GoStr × Option ValidationError :=
  validateEmailTrimmed (goTrimSpace input)

/-! ## Specification-side normalizer (§4.1 of spec.md)

`specNormalize` is written from the specification's words (steps 1-9 of
§4.1), with the tagged reasons of the spec; step 4's "RFC 5322 address-only
grammar (exactly one mailbox, display-name form accepted, bare address
extracted)" is the contract of `mail.ParseAddress`, i.e. `goParseAddress`.
It is compared with `validateEmail` (from the source) in claim C3. -/

inductive RejectReason where
  | empty
  | too_long
  | invalid_format
  | invalid_local_part
  | invalid_domain
  | invalid_domain_no_dot
deriving DecidableEq

def reasonMessage : RejectReason → String
  | .empty => "email cannot be empty"
  | .too_long => "email is too long (max 254 characters)"
  | .invalid_format => "invalid email format"
  | .invalid_local_part => "email local part is invalid"
  | .invalid_domain => "email domain is invalid"
  | .invalid_domain_no_dot => "email domain must contain at least one dot"

def specNormalizeTrimmed (t : GoStr) : Except RejectReason GoStr :=
  if t.isEmpty then .error .empty
  else if 254 < utf8Len t then .error .too_long
  else
    match goParseAddress t with
    | none => .error .invalid_format
    | some addr =>
      match splitOnAt addr with
      | [lp, dom] =>
        if utf8Len lp == 0 || 64 < utf8Len lp then .error .invalid_local_part
        else if utf8Len dom == 0 || 255 < utf8Len dom then .error .invalid_domain
        else if !(dom.contains '.') then .error .invalid_domain_no_dot
        else .ok (addr.map Char.toLower)
      | _ => .error .invalid_format

def specNormalize (raw : GoStr) : Except RejectReason GoStr :=
  specNormalizeTrimmed (goTrimSpace raw)

/-- View of a `specNormalize` outcome as the Go pair returned by
`validateEmail`, with the spec's tagged reason rendered as its message. -/
def specResultPair : Except RejectReason GoStr → GoStr × Option ValidationError
  | .ok c => (c, none)
  | .error r => ([], some ⟨"email", reasonMessage r⟩)

/-! ## POST /users handler (main.go:207-238)

Modelled after `ShouldBindJSON` has succeeded on a well-formed JSON body
(yielding the `email` field, absent field = empty string).  The gorm call
`db.Create` is an external collaborator, abstracted as a function from the
email to an optional error message (`none` = persisted). -/

structure HttpResponse where
  status : Nat
  key : String
  value : String
deriving DecidableEq

def postUsersHandler (create : GoStr → Option String) (email : GoStr) :
    HttpResponse :=
  match validateEmail email with
  | (_, some e) => ⟨400, "error", e.message⟩
  | (c, none) =>
    match create c with
    | some errMsg => ⟨500, "error", errMsg⟩
    | none => ⟨200, "message", "user created"⟩

/-! ## Basic facts about the string primitives -/

theorem utf8Len_nil : utf8Len [] = 0 := rfl

theorem utf8Len_cons (c : Char) (s : GoStr) :
    utf8Len (c :: s) = c.utf8Size + utf8Len s := rfl

theorem utf8Len_append (a b : GoStr) :
    utf8Len (a ++ b) = utf8Len a + utf8Len b := by
  induction a with
  | nil => simp [utf8Len]
  | cons c t ih => simp only [List.cons_append, utf8Len_cons, ih]; omega

theorem length_le_utf8Len (s : GoStr) : s.length ≤ utf8Len s := by
  induction s with
  | nil => simp [utf8Len]
  | cons c t ih =>
    have := Char.utf8Size_pos c
    simp only [List.length_cons, utf8Len_cons]
    omega

theorem utf8Len_dropWhile_le (p : Char → Bool) (s : GoStr) :
    utf8Len (s.dropWhile p) ≤ utf8Len s := by
  induction s with
  | nil => simp
  | cons c t ih =>
    rw [List.dropWhile_cons]
    split
    · exact le_trans ih (by rw [utf8Len_cons]; omega)
    · exact le_refl _

theorem utf8Len_skipSpace_le (s : GoStr) : utf8Len (skipSpace s) ≤ utf8Len s :=
  utf8Len_dropWhile_le _ s

theorem utf8Size_one_of_le127 (c : Char) (h : c.toNat ≤ 127) : c.utf8Size = 1 := by
  unfold Char.utf8Size
  dsimp only
  rw [if_pos]
  rw [UInt32.le_def, BitVec.le_def]
  exact h

/-! ## Facts about `Char.toLower` (the model of `strings.ToLower`) -/

theorem toNat_toLower_of_upper (c : Char) (h1 : 65 ≤ c.toNat) (h2 : c.toNat ≤ 90) :
    c.toLower.toNat = c.toNat + 32 := by
  unfold Char.toLower
  dsimp only
  rw [if_pos ⟨h1, h2⟩]
  unfold Char.ofNat
  rw [dif_pos (Or.inl (by omega))]
  rfl

theorem toLower_eq_self_of_not_upper (c : Char) (h : ¬(65 ≤ c.toNat ∧ c.toNat ≤ 90)) :
    c.toLower = c := by
  unfold Char.toLower
  dsimp only
  rw [if_neg]
  exact fun hh => h ⟨hh.1, hh.2⟩

theorem toLower_toLower (c : Char) : c.toLower.toLower = c.toLower := by
  by_cases h : 65 ≤ c.toNat ∧ c.toNat ≤ 90
  · have h1 := toNat_toLower_of_upper c h.1 h.2
    exact toLower_eq_self_of_not_upper _ (by omega)
  · rw [toLower_eq_self_of_not_upper c h, toLower_eq_self_of_not_upper c h]

theorem utf8Size_toLower (c : Char) : c.toLower.utf8Size = c.utf8Size := by
  by_cases h : 65 ≤ c.toNat ∧ c.toNat ≤ 90
  · have h1 := toNat_toLower_of_upper c h.1 h.2
    rw [utf8Size_one_of_le127 _ (by omega), utf8Size_one_of_le127 c (by omega)]
  · rw [toLower_eq_self_of_not_upper c h]

theorem utf8Len_map_toLower (s : GoStr) :
    utf8Len (s.map Char.toLower) = utf8Len s := by
  induction s with
  | nil => rfl
  | cons c t ih => simp only [List.map_cons, utf8Len_cons, utf8Size_toLower, ih]

theorem map_toLower_idem (s : GoStr) :
    (s.map Char.toLower).map Char.toLower = s.map Char.toLower := by
  induction s with
  | nil => rfl
  | cons c t ih => simp only [List.map_cons, toLower_toLower, ih]

theorem char_ne_of_toNat_ne {a b : Char} (h : a.toNat ≠ b.toNat) : a ≠ b :=
  fun e => h (congrArg Char.toNat e)

theorem char_beq_false (a b : Char) (n : Nat) (hb : b.toNat = n)
    (h : a.toNat ≠ n) : (a == b) = false := by
  rw [beq_eq_false_iff_ne]
  exact char_ne_of_toNat_ne (by omega)

theorem toLower_eq_iff_of_low (c a : Char) (ha : a.toNat < 65 ∨ 122 < a.toNat ∨
    (90 < a.toNat ∧ a.toNat < 97)) : c.toLower = a ↔ c = a := by
  constructor
  · intro h
    by_cases hu : 65 ≤ c.toNat ∧ c.toNat ≤ 90
    · have h1 := toNat_toLower_of_upper c hu.1 hu.2
      have := congrArg Char.toNat h
      omega
    · rwa [toLower_eq_self_of_not_upper c hu] at h
  · intro h
    subst h
    exact toLower_eq_self_of_not_upper _ (by omega)

theorem toLower_eq_dot_iff (c : Char) : c.toLower = '.' ↔ c = '.' :=
  toLower_eq_iff_of_low c '.' (by decide)

theorem toLower_eq_at_iff (c : Char) : c.toLower = '@' ↔ c = '@' :=
  toLower_eq_iff_of_low c '@' (by decide)

/-! ## Facts about the character classes -/

theorem isAtext_cases {d : Bool} {c : Char} (h : isAtext d c = true) :
    c = '.' ∨ ((c == '@') = false ∧ (c == '"') = false ∧ isVchar c = true) := by
  unfold isAtext at h
  by_cases h1 : (c == '.') = true
  · exact Or.inl (by rwa [beq_iff_eq] at h1)
  · rw [if_neg h1] at h
    by_cases h2 : (c == '(' || c == ')' || c == '<' || c == '>' || c == '[' || c == ']' ||
        c == ':' || c == ';' || c == '@' || c == '\\' || c == ',' || c == '"') = true
    · rw [if_pos h2] at h
      exact absurd h (by simp)
    · rw [if_neg h2] at h
      refine Or.inr ⟨?_, ?_, h⟩
      · rcases Bool.eq_false_or_eq_true (c == '@') with ht | hf
        · exact absurd (by simp [ht]) h2
        · exact hf
      · rcases Bool.eq_false_or_eq_true (c == '"') with ht | hf
        · exact absurd (by simp [ht]) h2
        · exact hf

theorem isVchar_toNat {c : Char} (h : isVchar c = true) :
    (0x21 ≤ c.toNat ∧ c.toNat ≤ 0x7E) ∨ 0x80 ≤ c.toNat := by
  unfold isVchar at h
  exact of_decide_eq_true h

theorem isAtext_isWSP_false {d : Bool} {c : Char} (h : isAtext d c = true) :
    isWSP c = false := by
  rcases isAtext_cases h with rfl | ⟨_, _, hv⟩
  · rfl
  · have := isVchar_toNat hv
    unfold isWSP
    rw [char_beq_false c ' ' 32 rfl (by omega), char_beq_false c '\t' 9 rfl (by omega)]
    rfl

theorem isAtext_ne_at {d : Bool} {c : Char} (h : isAtext d c = true) : c ≠ '@' := by
  rcases isAtext_cases h with rfl | ⟨hat, _, _⟩
  · decide
  · rwa [beq_eq_false_iff_ne] at hat

theorem isAtext_beq_quote_false {d : Bool} {c : Char} (h : isAtext d c = true) :
    (c == '"') = false := by
  rcases isAtext_cases h with rfl | ⟨_, hq, _⟩
  · rfl
  · exact hq

theorem isAtext_of_lower_letter (d : Bool) (ch : Char) (h1 : 97 ≤ ch.toNat)
    (h2 : ch.toNat ≤ 122) : isAtext d ch = true := by
  have hv : isVchar ch = true := by
    unfold isVchar; exact decide_eq_true (Or.inl ⟨by omega, by omega⟩)
  unfold isAtext
  rw [char_beq_false ch '.' 46 rfl (by omega),
      char_beq_false ch '(' 40 rfl (by omega), char_beq_false ch ')' 41 rfl (by omega),
      char_beq_false ch '<' 60 rfl (by omega), char_beq_false ch '>' 62 rfl (by omega),
      char_beq_false ch '[' 91 rfl (by omega), char_beq_false ch ']' 93 rfl (by omega),
      char_beq_false ch ':' 58 rfl (by omega), char_beq_false ch ';' 59 rfl (by omega),
      char_beq_false ch '@' 64 rfl (by omega), char_beq_false ch '\\' 92 rfl (by omega),
      char_beq_false ch ',' 44 rfl (by omega), char_beq_false ch '"' 34 rfl (by omega)]
  simpa using hv

theorem isAtext_toLower {d : Bool} {c : Char} (h : isAtext d c = true) :
    isAtext d c.toLower = true := by
  by_cases hu : 65 ≤ c.toNat ∧ c.toNat ≤ 90
  · have h1 := toNat_toLower_of_upper c hu.1 hu.2
    exact isAtext_of_lower_letter d _ (by omega) (by omega)
  · rwa [toLower_eq_self_of_not_upper c hu]

/-! ## Size monotonicity of the address parser

These lemmas bound the UTF-8 length of the extracted address by the length
of the parsed string: every consumer's returned state is no longer than its
input, and the extracted pieces fit into what was consumed. -/

theorem consumeQSLoop_size (s : GoStr) : ∀ (esc : Bool) (q r : GoStr),
    consumeQSLoop s esc = some (q, r) → utf8Len q + utf8Len r + 1 ≤ utf8Len s := by
  induction s with
  | nil =>
    intro esc q r h
    cases esc <;> simp [consumeQSLoop] at h
  | cons c rest ih =>
    intro esc q r h
    have hc := Char.utf8Size_pos c
    cases esc with
    | true =>
      simp only [consumeQSLoop] at h
      split at h
      · split at h
        · next q' st hm =>
          simp only [Option.some.injEq, Prod.mk.injEq] at h
          obtain ⟨rfl, rfl⟩ := h
          have := ih false q' st hm
          rw [utf8Len_cons, utf8Len_cons]
          omega
        · exact absurd h (by simp)
      · exact absurd h (by simp)
    | false =>
      simp only [consumeQSLoop] at h
      split at h
      · split at h
        · next q' st hm =>
          simp only [Option.some.injEq, Prod.mk.injEq] at h
          obtain ⟨rfl, rfl⟩ := h
          have := ih false q' st hm
          rw [utf8Len_cons, utf8Len_cons]
          omega
        · exact absurd h (by simp)
      · split at h
        · simp only [Option.some.injEq, Prod.mk.injEq] at h
          obtain ⟨rfl, rfl⟩ := h
          rw [utf8Len_cons, utf8Len_nil]
          omega
        · split at h
          · have := ih true q r h
            rw [utf8Len_cons]
            omega
          · exact absurd h (by simp)

theorem consumeQuotedString_size {s q r : GoStr}
    (h : consumeQuotedString s = some (q, r)) :
    utf8Len q + utf8Len r + 2 ≤ utf8Len s := by
  cases s with
  | nil => exact absurd h (by simp [consumeQuotedString])
  | cons c rest =>
    simp only [consumeQuotedString] at h
    split at h
    · have := consumeQSLoop_size rest false q r h
      have hc := Char.utf8Size_pos c
      rw [utf8Len_cons]
      omega
    · exact absurd h (by simp)

theorem consumeAtom_eq {d p : Bool} {s a r : GoStr}
    (h : consumeAtom d p s = some (a, r)) :
    a ++ r = s ∧ a ≠ [] ∧ (∀ x ∈ a, isAtext d x = true) := by
  unfold consumeAtom at h
  split at h
  · exact absurd h (by simp)
  · split at h
    · exact absurd h (by simp)
    · next hne _ =>
      simp only [Option.some.injEq, Prod.mk.injEq] at h
      obtain ⟨rfl, rfl⟩ := h
      refine ⟨List.takeWhile_append_dropWhile _ _, ?_, fun x hx => List.mem_takeWhile_imp hx⟩
      simpa [List.isEmpty_iff] using hne

theorem consumeAtom_size {d p : Bool} {s a r : GoStr}
    (h : consumeAtom d p s = some (a, r)) :
    utf8Len a + utf8Len r = utf8Len s := by
  have h1 := (consumeAtom_eq h).1
  calc utf8Len a + utf8Len r = utf8Len (a ++ r) := (utf8Len_append a r).symm
    _ = utf8Len s := by rw [h1]

theorem consumeCommentLoop_size_aux (n : Nat) : ∀ (s : GoStr), s.length ≤ n →
    ∀ (depth : Nat) (acc cm r : GoStr),
    consumeCommentLoop s depth acc = some (cm, r) → utf8Len r ≤ utf8Len s := by
  induction n with
  | zero =>
    intro s hs depth acc cm r h
    cases s with
    | nil => simp [consumeCommentLoop] at h
    | cons c rest => simp at hs
  | succ n ihn =>
    intro s hs depth acc cm r h
    cases s with
    | nil => simp [consumeCommentLoop] at h
    | cons c rest =>
      have hc := Char.utf8Size_pos c
      unfold consumeCommentLoop at h
      rw [utf8Len_cons]
      simp only [List.length_cons] at hs
      split at h
      · cases rest with
        | nil => simp at h
        | cons c2 rest2 =>
          simp only at h
          have hc2 := Char.utf8Size_pos c2
          have hlen : rest2.length ≤ n := by
            simp only [List.length_cons] at hs
            omega
          have := ihn rest2 hlen depth (c2 :: acc) cm r h
          rw [utf8Len_cons]
          omega
      · split at h
        · have := ihn rest (by omega) (depth + 1) ('(' :: acc) cm r h
          omega
        · split at h
          · split at h
            · simp only [Option.some.injEq, Prod.mk.injEq] at h
              obtain ⟨rfl, rfl⟩ := h
              omega
            · have := ihn rest (by omega) (depth - 1) (')' :: acc) cm r h
              omega
          · have := ihn rest (by omega) depth (c :: acc) cm r h
            omega

theorem consumeCommentLoop_size {s : GoStr} {depth : Nat} {acc cm r : GoStr}
    (h : consumeCommentLoop s depth acc = some (cm, r)) : utf8Len r ≤ utf8Len s :=
  consumeCommentLoop_size_aux s.length s (le_refl _) depth acc cm r h

theorem skipCFWSAux_size (f : Nat) : ∀ (s r : GoStr),
    skipCFWSAux f s = some r → utf8Len r ≤ utf8Len s := by
  induction f with
  | zero => intro s r h; simp [skipCFWSAux] at h
  | succ f ih =>
    intro s r h
    unfold skipCFWSAux at h
    split at h
    · next c rest hss =>
      have hle : utf8Len (c :: rest) ≤ utf8Len s := by
        rw [← hss]; exact utf8Len_skipSpace_le s
      split at h
      · split at h
        · next u st hcm =>
          have h1 := consumeCommentLoop_size hcm
          have h2 := ih st r h
          have hc := Char.utf8Size_pos c
          rw [utf8Len_cons] at hle
          omega
        · exact absurd h (by simp)
      · obtain rfl := Option.some.inj h
        exact hle
    · next hss =>
      obtain rfl := Option.some.inj h
      simp [utf8Len]

theorem skipCFWS_size {s r : GoStr} (h : skipCFWS s = some r) :
    utf8Len r ≤ utf8Len s :=
  skipCFWSAux_size _ s r h

theorem consumePhraseLoop_size (f : Nat) : ∀ (anyW : Bool) (s r : GoStr),
    consumePhraseLoop f anyW s = some r → utf8Len r ≤ utf8Len s := by
  induction f with
  | zero => intro anyW s r h; simp [consumePhraseLoop] at h
  | succ f ih =>
    intro anyW s r h
    unfold consumePhraseLoop at h
    split at h
    · exact absurd h (by simp)
    · next s1 hs1 =>
      have hle1 : utf8Len s1 ≤ utf8Len s := by
        cases anyW with
        | true => exact skipCFWS_size (by simpa using hs1)
        | false =>
          simp only [Bool.false_eq_true, if_false, Option.some.injEq] at hs1
          rw [← hs1]
      split at h
      · next hcs =>
        obtain rfl := Option.some.inj h
        simp [utf8Len]
      · next c cs hcs =>
        have hle2 : utf8Len (c :: cs) ≤ utf8Len s1 := by
          rw [← hcs]; exact utf8Len_skipSpace_le s1
        split at h
        · split at h
          · next u st hqs =>
            have h1 := consumeQuotedString_size hqs
            have h2 := ih true st r h
            omega
          · next hqs =>
            cases anyW with
            | false => exact absurd h (by simp)
            | true =>
              simp only [if_true] at h
              obtain rfl := Option.some.inj h
              omega
        · split at h
          · next atom rest hat =>
            have h1 := consumeAtom_size hat
            split at h
            · cases anyW with
              | false => exact absurd h (by simp)
              | true =>
                simp only [if_true] at h
                obtain rfl := Option.some.inj h
                omega
            · have h2 := ih true rest r h
              omega
          · next hat =>
            cases anyW with
            | false => exact absurd h (by simp)
            | true =>
              simp only [if_true] at h
              obtain rfl := Option.some.inj h
              omega

theorem consumePhrase_size {s r : GoStr} (h : consumePhrase s = some r) :
    utf8Len r ≤ utf8Len s :=
  consumePhraseLoop_size _ _ s r h

theorem consumeAddrSpec_size {s spec r : GoStr}
    (h : consumeAddrSpec s = some (spec, r)) :
    utf8Len spec + utf8Len r ≤ utf8Len s := by
  unfold consumeAddrSpec at h
  split at h
  · exact absurd h (by simp)
  · next c t hss =>
    have hle0 : utf8Len (c :: t) ≤ utf8Len s := by
      rw [← hss]; exact utf8Len_skipSpace_le s
    split at h
    · exact absurd h (by simp)
    · next lp s2 hlp =>
      have hsz : utf8Len lp + utf8Len s2 ≤ utf8Len (c :: t) := by
        split at hlp
        · split at hlp
          · next lp0 rest0 hqs =>
            split at hlp
            · exact absurd hlp (by simp)
            · simp only [Option.some.injEq, Prod.mk.injEq] at hlp
              obtain ⟨rfl, rfl⟩ := hlp
              have := consumeQuotedString_size hqs
              omega
          · exact absurd hlp (by simp)
        · have := consumeAtom_size hlp
          omega
      clear hlp
      split at h
      · next c2 s3 =>
        split at h
        · next hc2 =>
          have hc2' : c2 = '@' := by rwa [beq_iff_eq] at hc2
          subst hc2'
          split at h
          · exact absurd h (by simp)
          · next c4 s4 hsk =>
            have hle3 : utf8Len (c4 :: s4) ≤ utf8Len s3 := by
              rw [← hsk]; exact utf8Len_skipSpace_le s3
            split at h
            · next dom s5 hdom =>
              simp only [Option.some.injEq, Prod.mk.injEq] at h
              obtain ⟨rfl, rfl⟩ := h
              have h4 := consumeAtom_size hdom
              rw [utf8Len_append, utf8Len_cons]
              rw [utf8Len_cons] at hsz
              have h5 : Char.utf8Size '@' = 1 := rfl
              omega
            · exact absurd h (by simp)
        · exact absurd h (by simp)
      · exact absurd h (by simp)

theorem consumeDisplayNameComment_size {s r : GoStr}
    (h : consumeDisplayNameComment s = some r) : utf8Len r ≤ utf8Len s := by
  unfold consumeDisplayNameComment at h
  split at h
  · next c rest =>
    split at h
    · split at h
      · exact absurd h (by simp)
      · next cm st hcm =>
        split at h
        · obtain rfl := Option.some.inj h
          have h1 := consumeCommentLoop_size hcm
          have hc := Char.utf8Size_pos c
          rw [utf8Len_cons]
          omega
        · exact absurd h (by simp)
    · exact absurd h (by simp)
  · exact absurd h (by simp)

theorem parseAddressBase_size {s a r : GoStr}
    (h : parseAddressBase s = some (a, r)) :
    utf8Len a + utf8Len r ≤ utf8Len s := by
  unfold parseAddressBase at h
  split at h
  · exact absurd h (by simp)
  · next c0 rest0 hss =>
    have hle0 : utf8Len (c0 :: rest0) ≤ utf8Len s := by
      rw [← hss]; exact utf8Len_skipSpace_le s
    split at h
    · next spec s1 hspec =>
      have hA := consumeAddrSpec_size hspec
      split at h
      · next c r2 hsk =>
        have hle1 : utf8Len (c :: r2) ≤ utf8Len s1 := by
          rw [← hsk]; exact utf8Len_skipSpace_le s1
        split at h
        · split at h
          · next s3 hdnc =>
            simp only [Option.some.injEq, Prod.mk.injEq] at h
            obtain ⟨rfl, rfl⟩ := h
            have hD := consumeDisplayNameComment_size hdnc
            omega
          · exact absurd h (by simp)
        · simp only [Option.some.injEq, Prod.mk.injEq] at h
          obtain ⟨rfl, rfl⟩ := h
          omega
      · next hsk =>
        simp only [Option.some.injEq, Prod.mk.injEq] at h
        obtain ⟨rfl, rfl⟩ := h
        simp only [utf8Len_nil]
        omega
    · next hspec =>
      split at h
      · exact absurd h (by simp)
      · next s1 hph =>
        have hle1 : utf8Len s1 ≤ utf8Len (c0 :: rest0) := by
          split at hph
          · obtain rfl := Option.some.inj hph; exact le_refl _
          · exact consumePhrase_size hph
        split at h
        · next c1 s2 hsk1 =>
          have hle1b : utf8Len (c1 :: s2) ≤ utf8Len s1 := by
            rw [← hsk1]; exact utf8Len_skipSpace_le s1
          have hc1 := Char.utf8Size_pos c1
          split at h
          · split at h
            · next spec s3 hspec2 =>
              have hB := consumeAddrSpec_size hspec2
              split at h
              · next c3 s4 =>
                have hc3 := Char.utf8Size_pos c3
                split at h
                · simp only [Option.some.injEq, Prod.mk.injEq] at h
                  obtain ⟨rfl, rfl⟩ := h
                  rw [utf8Len_cons] at hle1b
                  rw [utf8Len_cons] at hB
                  omega
                · exact absurd h (by simp)
              · exact absurd h (by simp)
            · exact absurd h (by simp)
          · exact absurd h (by simp)
        · exact absurd h (by simp)

theorem consumeGroupListLoop_mem (f : Nat) : ∀ (acc : List GoStr) (s : GoStr)
    (res : List GoStr) (r : GoStr), consumeGroupListLoop f acc s = some (res, r) →
    ∀ a ∈ res, a ∈ acc ∨ utf8Len a ≤ utf8Len s := by
  induction f with
  | zero => intro acc s res r h; simp [consumeGroupListLoop] at h
  | succ f ih =>
    intro acc s res r h
    unfold consumeGroupListLoop at h
    split at h
    · exact absurd h (by simp)
    · next addr s2 hpb =>
      have hA := parseAddressBase_size hpb
      have hsk := utf8Len_skipSpace_le s
      split at h
      · exact absurd h (by simp)
      · next s3 hcf =>
        have hB := skipCFWS_size hcf
        split at h
        · next c3 s4 =>
          have hc3 := Char.utf8Size_pos c3
          split at h
          · split at h
            · next s5 hcf2 =>
              simp only [Option.some.injEq, Prod.mk.injEq] at h
              obtain ⟨rfl, rfl⟩ := h
              intro x hx
              rcases List.mem_append.mp hx with hx | hx
              · exact Or.inl hx
              · simp only [List.mem_singleton] at hx
                subst hx
                right
                omega
            · exact absurd h (by simp)
          · split at h
            · have hlen4 : utf8Len s4 ≤ utf8Len s := by
                rw [utf8Len_cons] at hB
                omega
              intro x hx
              rcases ih (acc ++ [addr]) s4 res r h x hx with hx2 | hx2
              · rcases List.mem_append.mp hx2 with hx3 | hx3
                · exact Or.inl hx3
                · simp only [List.mem_singleton] at hx3
                  subst hx3
                  right
                  omega
              · right
                omega
            · exact absurd h (by simp)
        · exact absurd h (by simp)

theorem consumeGroupList_mem {s : GoStr} {res : List GoStr} {r : GoStr}
    (h : consumeGroupList s = some (res, r)) :
    ∀ a ∈ res, utf8Len a ≤ utf8Len s := by
  unfold consumeGroupList at h
  split at h
  · next c s2 hss =>
    have hle : utf8Len (c :: s2) ≤ utf8Len s := by
      rw [← hss]; exact utf8Len_skipSpace_le s
    split at h
    · split at h
      · next s3 hcf =>
        simp only [Option.some.injEq, Prod.mk.injEq] at h
        obtain ⟨rfl, rfl⟩ := h
        intro a ha
        simp at ha
      · exact absurd h (by simp)
    · intro a ha
      rcases consumeGroupListLoop_mem _ [] (c :: s2) res r h a ha with hx | hx
      · simp at hx
      · omega
  · next hss =>
    intro a ha
    rcases consumeGroupListLoop_mem 1 [] [] res r h a ha with hx | hx
    · simp at hx
    · simp only [utf8Len_nil] at hx
      omega

theorem parseAddressTop_mem {s : GoStr} {res : List GoStr} {r : GoStr}
    (h : parseAddressTop s = some (res, r)) :
    ∀ a ∈ res, utf8Len a ≤ utf8Len s := by
  unfold parseAddressTop at h
  split at h
  · exact absurd h (by simp)
  · next c0 rest0 hss =>
    have hle0 : utf8Len (c0 :: rest0) ≤ utf8Len s := by
      rw [← hss]; exact utf8Len_skipSpace_le s
    split at h
    · next spec s1 hspec =>
      have hA := consumeAddrSpec_size hspec
      split at h
      · next c r2 hsk =>
        have hle1 : utf8Len (c :: r2) ≤ utf8Len s1 := by
          rw [← hsk]; exact utf8Len_skipSpace_le s1
        split at h
        · split at h
          · next s3 hdnc =>
            simp only [Option.some.injEq, Prod.mk.injEq] at h
            obtain ⟨rfl, rfl⟩ := h
            intro a ha
            simp only [List.mem_singleton] at ha
            subst ha
            omega
          · exact absurd h (by simp)
        · simp only [Option.some.injEq, Prod.mk.injEq] at h
          obtain ⟨rfl, rfl⟩ := h
          intro a ha
          simp only [List.mem_singleton] at ha
          subst ha
          omega
      · next hsk =>
        simp only [Option.some.injEq, Prod.mk.injEq] at h
        obtain ⟨rfl, rfl⟩ := h
        intro a ha
        simp only [List.mem_singleton] at ha
        subst ha
        omega
    · next hspec =>
      split at h
      · exact absurd h (by simp)
      · next s1 hph =>
        have hle1 : utf8Len s1 ≤ utf8Len (c0 :: rest0) := by
          split at hph
          · obtain rfl := Option.some.inj hph; exact le_refl _
          · exact consumePhrase_size hph
        split at h
        · next c1 s2 hsk1 =>
          have hle1b : utf8Len (c1 :: s2) ≤ utf8Len s1 := by
            rw [← hsk1]; exact utf8Len_skipSpace_le s1
          have hc1 := Char.utf8Size_pos c1
          split at h
          · intro a ha
            have := consumeGroupList_mem h a ha
            rw [utf8Len_cons] at hle1b
            omega
          · split at h
            · split at h
              · next spec s3 hspec2 =>
                have hB := consumeAddrSpec_size hspec2
                split at h
                · next c3 s4 =>
                  split at h
                  · simp only [Option.some.injEq, Prod.mk.injEq] at h
                    obtain ⟨rfl, rfl⟩ := h
                    intro a ha
                    simp only [List.mem_singleton] at ha
                    subst ha
                    rw [utf8Len_cons] at hle1b
                    omega
                  · exact absurd h (by simp)
                · exact absurd h (by simp)
              · exact absurd h (by simp)
            · exact absurd h (by simp)
        · exact absurd h (by simp)

theorem goParseAddress_size {s a : GoStr} (h : goParseAddress s = some a) :
    utf8Len a ≤ utf8Len s := by
  unfold goParseAddress at h
  split at h
  · exact absurd h (by simp)
  · next addrs s1 htop =>
    split at h
    · exact absurd h (by simp)
    · next s2 hcf =>
      split at h
      · exact absurd h (by simp)
      · split at h
        · next a0 =>
          obtain rfl := Option.some.inj h
          exact parseAddressTop_mem htop _ (by simp)
        · exact absurd h (by simp)

/-! ## TrimSpace lemmas -/

theorem dropWhile_eq_self_of_head (p : Char → Bool) (s : GoStr)
    (h : ∀ c ∈ s.head?, p c = false) : s.dropWhile p = s := by
  cases s with
  | nil => rfl
  | cons c t =>
    rw [List.dropWhile_cons, if_neg]
    simp only [List.head?_cons, Option.mem_def, Option.some.injEq] at h
    simp [h c rfl]

theorem head_not_space_of_dropWhile (p : Char → Bool) (s : GoStr) :
    ∀ c ∈ (s.dropWhile p).head?, p c = false := by
  induction s with
  | nil => intro c hc; simp at hc
  | cons a t ih =>
    intro c hc
    rw [List.dropWhile_cons] at hc
    split at hc
    · exact ih c hc
    · next hpa =>
      simp only [List.head?_cons, Option.mem_def, Option.some.injEq] at hc
      subst hc
      simpa using hpa

theorem goTrimRight_prefix (m : GoStr) : ∃ t, m = goTrimRight m ++ t := by
  unfold goTrimRight
  obtain h := List.takeWhile_append_dropWhile goIsSpace m.reverse
  refine ⟨(m.reverse.takeWhile goIsSpace).reverse, ?_⟩
  calc m = m.reverse.reverse := (List.reverse_reverse m).symm
    _ = ((m.reverse.takeWhile goIsSpace) ++ (m.reverse.dropWhile goIsSpace)).reverse := by
        rw [h]
    _ = (m.reverse.dropWhile goIsSpace).reverse ++ (m.reverse.takeWhile goIsSpace).reverse := by
        rw [List.reverse_append]

theorem head_of_goTrimRight (m : GoStr) (c : Char)
    (hc : (goTrimRight m).head? = some c) : m.head? = some c := by
  obtain ⟨t, ht⟩ := goTrimRight_prefix m
  rw [ht]
  cases hg : goTrimRight m with
  | nil => rw [hg] at hc; simp at hc
  | cons a b =>
    rw [hg] at hc
    simp only [List.head?_cons, Option.some.injEq] at hc
    subst hc
    simp

theorem goTrimRight_idem (m : GoStr) : goTrimRight (goTrimRight m) = goTrimRight m := by
  unfold goTrimRight
  rw [List.reverse_reverse]
  congr 1
  apply dropWhile_eq_self_of_head
  exact head_not_space_of_dropWhile goIsSpace m.reverse

theorem goTrimSpace_idem (s : GoStr) : goTrimSpace (goTrimSpace s) = goTrimSpace s := by
  unfold goTrimSpace
  have h1 : goTrimLeft (goTrimRight (goTrimLeft s)) = goTrimRight (goTrimLeft s) := by
    unfold goTrimLeft
    apply dropWhile_eq_self_of_head
    intro c hc
    exact head_not_space_of_dropWhile goIsSpace s c (head_of_goTrimRight _ c hc)
  rw [h1, goTrimRight_idem]

theorem goTrimSpace_eq_self (s : GoStr) (h1 : ∀ c ∈ s.head?, goIsSpace c = false)
    (h2 : ∀ c ∈ s.getLast?, goIsSpace c = false) : goTrimSpace s = s := by
  unfold goTrimSpace goTrimLeft goTrimRight
  rw [dropWhile_eq_self_of_head _ _ h1]
  rw [dropWhile_eq_self_of_head _ _ (by rwa [List.head?_reverse])]
  exact List.reverse_reverse s

/-! ## splitOnAt lemmas -/

theorem splitOnAt_ne_nil (s : GoStr) : splitOnAt s ≠ [] := by
  cases s with
  | nil => simp [splitOnAt]
  | cons c rest =>
    unfold splitOnAt
    split
    · simp
    · split <;> simp

theorem splitOnAt_no_at {s : GoStr} (h : '@' ∉ s) : splitOnAt s = [s] := by
  induction s with
  | nil => rfl
  | cons c rest ih =>
    unfold splitOnAt
    rw [if_neg (by intro hc; exact h (by simp [hc]))]
    rw [ih (by intro hc; exact h (by simp [hc]))]

theorem splitOnAt_singleton {s d : GoStr} (h : splitOnAt s = [d]) :
    s = d ∧ '@' ∉ s := by
  induction s generalizing d with
  | nil =>
    simp only [splitOnAt, List.cons.injEq, and_true] at h
    exact ⟨h, by simp⟩
  | cons c rest ih =>
    unfold splitOnAt at h
    split at h
    · next hc =>
      simp only [List.cons.injEq] at h
      exact absurd h.2 (splitOnAt_ne_nil rest)
    · next hc =>
      split at h
      · next p ps hps =>
        simp only [List.cons.injEq] at h
        obtain ⟨rfl, hps2⟩ := h
        obtain rfl : ps = [] := hps2
        obtain ⟨rfl, hrest⟩ := ih hps
        refine ⟨rfl, ?_⟩
        simp only [List.mem_cons, not_or]
        exact ⟨fun he => hc he.symm, hrest⟩
      · next hps => exact absurd hps (splitOnAt_ne_nil rest)

theorem splitOnAt_eq_pair {s x y : GoStr} (h : splitOnAt s = [x, y]) :
    s = x ++ '@' :: y ∧ '@' ∉ x ∧ '@' ∉ y := by
  induction s generalizing x y with
  | nil => simp [splitOnAt] at h
  | cons c rest ih =>
    unfold splitOnAt at h
    split at h
    · next hc =>
      subst hc
      simp only [List.cons.injEq] at h
      obtain ⟨rfl, hrest⟩ := h
      obtain ⟨rfl, hy⟩ := splitOnAt_singleton hrest
      exact ⟨rfl, by simp, hy⟩
    · next hc =>
      split at h
      · next p ps hps =>
        simp only [List.cons.injEq] at h
        obtain ⟨rfl, hps2⟩ := h
        subst hps2
        obtain ⟨rfl, hx, hy⟩ := ih hps
        refine ⟨by simp, ?_, hy⟩
        simp only [List.mem_cons, not_or]
        exact ⟨fun he => hc he.symm, hx⟩
      · next hps => exact absurd hps (splitOnAt_ne_nil rest)

theorem splitOnAt_pair_of {x y : GoStr} (hx : '@' ∉ x) (hy : '@' ∉ y) :
    splitOnAt (x ++ '@' :: y) = [x, y] := by
  induction x with
  | nil =>
    simp only [List.nil_append]
    unfold splitOnAt
    rw [if_pos rfl, splitOnAt_no_at hy]
  | cons c t ih =>
    have hc : c ≠ '@' := by intro hc; exact hx (by simp [hc])
    have ht : '@' ∉ t := by intro hm; exact hx (by simp [hm])
    simp only [List.cons_append]
    unfold splitOnAt
    rw [if_neg hc, ih ht]

/-! ## Inversion of a successful validateEmail -/

theorem goContains_iff (l : GoStr) (c : Char) : l.contains c = true ↔ c ∈ l := by
  simp [List.elem_iff]

theorem validateEmailTrimmed_ok {t c : GoStr}
    (h : validateEmailTrimmed t = (c, none)) :
    ∃ addr lp dom, goParseAddress t = some addr ∧ splitOnAt addr = [lp, dom] ∧
      utf8Len t ≤ 254 ∧
      1 ≤ utf8Len lp ∧ utf8Len lp ≤ 64 ∧ 1 ≤ utf8Len dom ∧ utf8Len dom ≤ 255 ∧
      '.' ∈ dom ∧ c = addr.map Char.toLower := by
  unfold validateEmailTrimmed at h
  split at h
  · exact absurd (congrArg Prod.snd h) (by simp)
  · next hemp =>
    split at h
    · exact absurd (congrArg Prod.snd h) (by simp)
    · next h254 =>
      split at h
      · exact absurd (congrArg Prod.snd h) (by simp)
      · next addr hpar =>
        split at h
        · next lp dom hsplit =>
          split at h
          · exact absurd (congrArg Prod.snd h) (by simp)
          · next hlp =>
            split at h
            · exact absurd (congrArg Prod.snd h) (by simp)
            · next hdom =>
              split at h
              · exact absurd (congrArg Prod.snd h) (by simp)
              · next hdot =>
                simp only [Bool.or_eq_true, beq_iff_eq, decide_eq_true_eq, not_or] at hlp hdom
                simp only [Bool.not_eq_true', Bool.not_eq_false] at hdot
                refine ⟨addr, lp, dom, hpar, hsplit, by omega, by omega, by omega,
                  by omega, by omega, (goContains_iff dom '.').mp hdot, ?_⟩
                exact (congrArg Prod.fst h).symm
        · exact absurd (congrArg Prod.snd h) (by simp)

/-! ## Claim theorems -/

/-- Claim C3 (confirmed): `validateEmail` refines the §4.1 specification
cascade: for every input, the source function returns exactly the outcome of
the spec-side normalizer `specNormalize` (steps 1-9 in order, first violated
rule reported), with each tagged reason rendered as its message string. -/
theorem c3_checks_in_spec_order (s : GoStr) :
    validateEmail s = specResultPair (specNormalize s) := by
  unfold validateEmail specNormalize
  generalize goTrimSpace s = t
  unfold validateEmailTrimmed specNormalizeTrimmed
  split
  · rfl
  · split
    · rfl
    · cases hp : goParseAddress t with
      | none => rfl
      | some addr =>
        dsimp only
        cases hs : splitOnAt addr with
        | nil => rfl
        | cons p ps =>
          cases ps with
          | nil => rfl
          | cons q qs =>
            cases qs with
            | cons x xs => rfl
            | nil =>
              dsimp only
              split
              · rfl
              · split
                · rfl
                · split
                  · rfl
                  · rfl

/-- Claim C4 (confirmed): any input whose trimmed form is longer than 254
characters is rejected with the `too_long` message, regardless of its other
defects. -/
theorem c4_too_long (s : GoStr) (h : 254 < (goTrimSpace s).length) :
    validateEmail s = ([], some ⟨"email", msgTooLong⟩) := by
  unfold validateEmail validateEmailTrimmed
  have hlen := length_le_utf8Len (goTrimSpace s)
  have hne : ¬(goTrimSpace s).isEmpty = true := by
    rw [List.isEmpty_iff]
    intro he
    rw [he] at h
    simp at h
  rw [if_neg hne, if_pos (by omega)]

set_option maxRecDepth 40000 in
/-- Claim C4 witness: 250 copies of `a` followed by `@example.com` (262
characters) is rejected as too long. -/
theorem c4_too_long_witness :
    254 < (goTrimSpace (List.replicate 250 'a' ++ String.toList "@example.com")).length ∧
    validateEmail (List.replicate 250 'a' ++ String.toList "@example.com") =
      ([], some ⟨"email", msgTooLong⟩) :=
  ⟨by decide, c4_too_long _ (by decide)⟩

/-- Claim C6 (confirmed): any input whose trimmed form is empty (the empty
string, whitespace-only strings, the absent upstream field) is rejected with
reason `empty` and message `email cannot be empty`. -/
theorem c6_empty (s : GoStr) (h : goTrimSpace s = []) :
    validateEmail s = ([], some ⟨"email", msgEmpty⟩) := by
  unfold validateEmail validateEmailTrimmed
  rw [h]
  rfl

/-- Claim C6 witness: the empty string and a whitespace-only string are both
rejected as empty. -/
theorem c6_empty_witness :
    goTrimSpace (String.toList "   ") = [] ∧
    validateEmail (String.toList "   ") = ([], some ⟨"email", msgEmpty⟩) ∧
    validateEmail (String.toList "") = ([], some ⟨"email", msgEmpty⟩) :=
  ⟨by decide, c6_empty _ (by decide), c6_empty _ (by decide)⟩

/-- Claim C7 (confirmed): `validateEmail` is total and well-typed: every
input yields either a successful canonical string or a `ValidationError`
whose `Field` is `email`; no other outcome exists in the model (the Go
function performs no panicking operation, which the embedding reflects by
being a total function into this sum of outcomes). -/
theorem c7_total (s : GoStr) :
    (∃ c, validateEmail s = (c, none)) ∨
    (∃ e, validateEmail s = ([], some e) ∧ e.field = "email") := by
  unfold validateEmail validateEmailTrimmed
  repeat' split
  all_goals first
    | exact Or.inl ⟨_, rfl⟩
    | exact Or.inr ⟨_, rfl, rfl⟩

/-- Claim C9 (confirmed): `validateEmail` is invariant under surrounding
white space: it returns exactly the same result on `s` and on the trimmed
form of `s`. -/
theorem c9_trim_invariant (s : GoStr) :
    validateEmail s = validateEmail (goTrimSpace s) := by
  unfold validateEmail
  rw [goTrimSpace_idem]

/-- Claim C10 (confirmed): whenever `validateEmail` fails, the string
component of the returned pair is empty, the error's `Field` is `email`,
`Error()` returns the `Message`, and the message is one of the six fixed
strings. -/
theorem c10_failure_shape (s res : GoStr) (e : ValidationError)
    (h : validateEmail s = (res, some e)) :
    res = [] ∧ e.field = "email" ∧ validationErrorString e = e.message ∧
      (e.message = msgEmpty ∨ e.message = msgTooLong ∨ e.message = msgFormat ∨
        e.message = msgLocal ∨ e.message = msgDomain ∨ e.message = msgNoDot) := by
  unfold validateEmail validateEmailTrimmed at h
  repeat' split at h
  all_goals
    first
      | (exact Option.noConfusion (congrArg Prod.snd h))
      | (simp only [Prod.mk.injEq, Option.some.injEq] at h
         obtain ⟨rfl, rfl⟩ := h
         refine ⟨rfl, rfl, rfl, ?_⟩
         simp [validationErrorString])

/-- Claim C10 witness: the empty input produces the empty-string result and
the `empty` error. -/
theorem c10_failure_shape_witness :
    ([] : GoStr) = [] ∧ (ValidationError.mk "email" msgEmpty).field = "email" ∧
      validationErrorString ⟨"email", msgEmpty⟩ = (ValidationError.mk "email" msgEmpty).message ∧
      ((ValidationError.mk "email" msgEmpty).message = msgEmpty ∨
        (ValidationError.mk "email" msgEmpty).message = msgTooLong ∨
        (ValidationError.mk "email" msgEmpty).message = msgFormat ∨
        (ValidationError.mk "email" msgEmpty).message = msgLocal ∨
        (ValidationError.mk "email" msgEmpty).message = msgDomain ∨
        (ValidationError.mk "email" msgEmpty).message = msgNoDot) :=
  c10_failure_shape (String.toList "") [] ⟨"email", msgEmpty⟩ rfl

set_option maxRecDepth 40000 in
/-- Claim C5 (confirmed): each of the six malformed inputs from the test
suite is rejected by `validateEmail` with a `ValidationFailure`; the four
shape errors report `invalid email format` and `user@localhost` reports the
missing-dot message. -/
theorem c5_malformed_rejected :
    validateEmail (String.toList "invalidemail.com") = ([], some ⟨"email", msgFormat⟩) ∧
    validateEmail (String.toList "user@") = ([], some ⟨"email", msgFormat⟩) ∧
    validateEmail (String.toList "@example.com") = ([], some ⟨"email", msgFormat⟩) ∧
    validateEmail (String.toList "user@localhost") = ([], some ⟨"email", msgNoDot⟩) ∧
    validateEmail (String.toList "user@@example.com") = ([], some ⟨"email", msgFormat⟩) ∧
    validateEmail (String.toList "user name@example.com") = ([], some ⟨"email", msgFormat⟩) := by
  refine ⟨?_, ?_, ?_, ?_, ?_, ?_⟩ <;> decide

/-- Claim C8 (confirmed): the POST /users handler (after successful JSON
binding) persists exactly when validation succeeds: a valid email whose
`db.Create` succeeds yields 200 with `user created`; a validation failure
yields 400 with the failure's message and never reaches persistence (the
response is the same for every `create` collaborator). -/
theorem c8_post_users_contract (create : GoStr → Option String) (email : GoStr) :
    (∀ c, validateEmail email = (c, none) → create c = none →
      postUsersHandler create email = ⟨200, "message", "user created"⟩) ∧
    (∀ res e, validateEmail email = (res, some e) →
      postUsersHandler create email = ⟨400, "error", e.message⟩) := by
  constructor
  · intro c hval hcr
    unfold postUsersHandler
    rw [hval]
    dsimp only
    rw [hcr]
  · intro res e hval
    unfold postUsersHandler
    rw [hval]

/-- Claim C8 witness: with an always-succeeding store, a valid email gets
200/user created, and an invalid one gets 400 with the validation message
under any store. -/
theorem c8_post_users_contract_witness :
    postUsersHandler (fun _ => none) (String.toList "a@b.co") =
      ⟨200, "message", "user created"⟩ ∧
    postUsersHandler (fun _ => none) (String.toList "bad") =
      ⟨400, "error", msgFormat⟩ :=
  ⟨(c8_post_users_contract (fun _ => none) (String.toList "a@b.co")).1
      (String.toList "a@b.co") (by decide) rfl,
    (c8_post_users_contract (fun _ => none) (String.toList "bad")).2
      [] ⟨"email", msgFormat⟩ (by decide)⟩

theorem not_mem_at_map_toLower {l : GoStr} (h : '@' ∉ l) :
    '@' ∉ l.map Char.toLower := by
  intro hm
  obtain ⟨x, hx, he⟩ := List.mem_map.mp hm
  exact h ((toLower_eq_at_iff x).mp he ▸ hx)

set_option maxRecDepth 40000 in
/-- Claim C1 (counterexample): the RFC 5322 quoted-string input
`" a"@example.com` is accepted by `validateEmail` and canonicalized to
`" a@example.com"`, which begins with a space, so a successful result can
carry leading white space. -/
theorem c1_counterexample :
    validateEmail (String.toList "\" a\"@example.com") =
      (String.toList " a@example.com", none) ∧
    (String.toList " a@example.com").head? = some ' ' ∧
    goIsSpace ' ' = true :=
  ⟨by decide, rfl, rfl⟩

/-- Claim C1 (amended): every successful result of `validateEmail` is
non-empty, at most 254 characters long, entirely lowercase (lowercasing it
again changes nothing), and consists of exactly one `@` separating a
non-empty local part of at most 64 characters from a non-empty domain part
of at most 255 characters that contains at least one dot.  The original
claim's "no leading or trailing whitespace" clause is dropped: a quoted
local part may begin with white space (see the counterexample). -/
theorem c1_canonical_shape {s c : GoStr} (h : validateEmail s = (c, none)) :
    c ≠ [] ∧ c.length ≤ 254 ∧ c.map Char.toLower = c ∧
    ∃ lp dom, c = lp ++ '@' :: dom ∧ '@' ∉ lp ∧ '@' ∉ dom ∧
      lp ≠ [] ∧ lp.length ≤ 64 ∧ dom ≠ [] ∧ dom.length ≤ 255 ∧ '.' ∈ dom := by
  unfold validateEmail at h
  obtain ⟨addr, lp, dom, hpar, hsplit, h254, hlp1, hlp64, hdom1, hdom255, hdot, hc⟩ :=
    validateEmailTrimmed_ok h
  obtain ⟨rfl, hlpA, hdomA⟩ := splitOnAt_eq_pair hsplit
  subst hc
  have hsize := goParseAddress_size hpar
  have hlen_addr : (lp ++ '@' :: dom).length ≤ utf8Len (lp ++ '@' :: dom) :=
    length_le_utf8Len _
  have hlplen : lp.length ≤ utf8Len lp := length_le_utf8Len lp
  have hdomlen : dom.length ≤ utf8Len dom := length_le_utf8Len dom
  have hlpne : lp ≠ [] := by intro he; subst he; simp [utf8Len] at hlp1
  have hdomne : dom ≠ [] := by intro he; subst he; simp [utf8Len] at hdom1
  refine ⟨?_, ?_, map_toLower_idem _, List.map Char.toLower lp,
    List.map Char.toLower dom, ?_, ?_, ?_, ?_, ?_, ?_, ?_, ?_⟩
  · simp
  · rw [List.length_map]
    omega
  · rw [List.map_append, List.map_cons]
    rfl
  · exact not_mem_at_map_toLower hlpA
  · exact not_mem_at_map_toLower hdomA
  · simp [hlpne]
  · rw [List.length_map]; omega
  · simp [hdomne]
  · rw [List.length_map]; omega
  · exact List.mem_map.mpr ⟨'.', hdot, rfl⟩

set_option maxRecDepth 40000 in
/-- Claim C1 witness: the amended canonical-shape property instantiated at
the accepted input `"  Test@Example.COM  "`, whose canonical result is
`test@example.com`. -/
theorem c1_canonical_shape_witness :
    (String.toList "test@example.com") ≠ [] ∧
    (String.toList "test@example.com").length ≤ 254 ∧
    (String.toList "test@example.com").map Char.toLower =
      String.toList "test@example.com" ∧
    (∃ lp dom, String.toList "test@example.com" = lp ++ '@' :: dom ∧
      '@' ∉ lp ∧ '@' ∉ dom ∧ lp ≠ [] ∧ lp.length ≤ 64 ∧ dom ≠ [] ∧
      dom.length ≤ 255 ∧ '.' ∈ dom) :=
  @c1_canonical_shape (String.toList "  Test@Example.COM  ")
    (String.toList "test@example.com") (by decide)

/-! ## Forward evaluation of the parser on canonical dot-atom addresses
(used for the amended idempotence claim) -/

/-- A nonempty all-atext string with sound dot structure: exactly what
`consumeAtom true false` accepts in full. -/
def DotAtomOk (l : GoStr) : Prop :=
  l ≠ [] ∧ (∀ x ∈ l, isAtext true x = true) ∧ l.head? ≠ some '.' ∧
    hasDoubleDot l = false ∧ l.getLast? ≠ some '.'

instance (l : GoStr) : Decidable (DotAtomOk l) := by
  unfold DotAtomOk
  infer_instance

theorem takeWhile_append_of_all {p : Char → Bool} {l r : GoStr}
    (hall : ∀ x ∈ l, p x = true) :
    (l ++ r).takeWhile p = l ++ r.takeWhile p ∧
    (l ++ r).dropWhile p = r.dropWhile p := by
  induction l with
  | nil => simp
  | cons c t ih =>
    have hc := hall c (by simp)
    obtain ⟨ih1, ih2⟩ := ih (fun x hx => hall x (by simp [hx]))
    simp [List.takeWhile_cons, List.dropWhile_cons, hc, ih1, ih2]

theorem option_beq_false_of_ne {a b : Option Char} (h : a ≠ b) : (a == b) = false := by
  rwa [beq_eq_false_iff_ne]

theorem consumeAtom_full {l : GoStr} (h : DotAtomOk l) :
    consumeAtom true false l = some (l, []) := by
  obtain ⟨hne, hall, hh, hdd, hl⟩ := h
  unfold consumeAtom
  have htake : l.takeWhile (isAtext true) = l := List.takeWhile_eq_self_iff.mpr hall
  have hdrop : l.dropWhile (isAtext true) = [] := by
    have hcat := List.takeWhile_append_dropWhile (isAtext true) l
    rw [htake] at hcat
    have : l ++ l.dropWhile (isAtext true) = l ++ [] := by simpa using hcat
    exact List.append_cancel_left this
  rw [htake, hdrop]
  rw [if_neg (by simpa [List.isEmpty_iff] using hne)]
  rw [if_neg (by simp [option_beq_false_of_ne hh, option_beq_false_of_ne hl, hdd])]

theorem consumeAtom_upto_at {l d : GoStr} (hl : DotAtomOk l) :
    consumeAtom true false (l ++ '@' :: d) = some (l, '@' :: d) := by
  obtain ⟨hne, hall, hh, hdd, hl2⟩ := hl
  unfold consumeAtom
  obtain ⟨htake, hdrop⟩ := takeWhile_append_of_all (r := '@' :: d) hall
  have hat : isAtext true '@' = false := by decide
  rw [List.takeWhile_cons, if_neg (by simp [hat])] at htake
  rw [List.dropWhile_cons, if_neg (by simp [hat])] at hdrop
  rw [htake, hdrop]
  simp only [List.append_nil]
  rw [if_neg (by simpa [List.isEmpty_iff] using hne)]
  rw [if_neg (by simp [option_beq_false_of_ne hh, option_beq_false_of_ne hl2, hdd])]

theorem consumeAddrSpec_canonical {l d : GoStr} (hl : DotAtomOk l) (hd : DotAtomOk d) :
    consumeAddrSpec (l ++ '@' :: d) = some (l ++ '@' :: d, []) := by
  obtain ⟨lh, lt, rfl⟩ := List.exists_cons_of_ne_nil hl.1
  obtain ⟨dh, dt, rfl⟩ := List.exists_cons_of_ne_nil hd.1
  have hlh : isAtext true lh = true := hl.2.1 lh (by simp)
  have hdh : isAtext true dh = true := hd.2.1 dh (by simp)
  have hca1 := consumeAtom_upto_at (d := dh :: dt) hl
  have hca2 := consumeAtom_full hd
  unfold consumeAddrSpec
  have hss : skipSpace ((lh :: lt) ++ '@' :: dh :: dt) = (lh :: lt) ++ '@' :: dh :: dt := by
    apply dropWhile_eq_self_of_head
    intro x hx
    simp only [List.cons_append, List.head?_cons, Option.mem_def, Option.some.injEq] at hx
    subst hx
    exact isAtext_isWSP_false hlh
  rw [hss]
  simp only [List.cons_append]
  have hq : (lh == '"') = false := isAtext_beq_quote_false hlh
  rw [hq]
  simp only [Bool.false_eq_true, if_false]
  simp only [List.cons_append] at hca1
  rw [hca1]
  have hss2 : skipSpace (dh :: dt) = dh :: dt := by
    apply dropWhile_eq_self_of_head
    intro x hx
    simp only [List.head?_cons, Option.mem_def, Option.some.injEq] at hx
    subst hx
    exact isAtext_isWSP_false hdh
  simp only [beq_self_eq_true, if_true, hss2]
  rw [hca2]
  rfl

theorem parseAddressTop_canonical {l d : GoStr} (hl : DotAtomOk l) (hd : DotAtomOk d) :
    parseAddressTop (l ++ '@' :: d) = some ([l ++ '@' :: d], []) := by
  have hca := consumeAddrSpec_canonical hl hd
  obtain ⟨lh, lt, rfl⟩ := List.exists_cons_of_ne_nil hl.1
  have hlh : isAtext true lh = true := hl.2.1 lh (by simp)
  unfold parseAddressTop
  have hss : skipSpace ((lh :: lt) ++ '@' :: d) = (lh :: lt) ++ '@' :: d := by
    apply dropWhile_eq_self_of_head
    intro x hx
    simp only [List.cons_append, List.head?_cons, Option.mem_def, Option.some.injEq] at hx
    subst hx
    exact isAtext_isWSP_false hlh
  rw [hss]
  simp only [List.cons_append]
  simp only [List.cons_append] at hca
  rw [hca]
  rfl

theorem goParseAddress_canonical {l d : GoStr} (hl : DotAtomOk l) (hd : DotAtomOk d) :
    goParseAddress (l ++ '@' :: d) = some (l ++ '@' :: d) := by
  unfold goParseAddress
  rw [parseAddressTop_canonical hl hd]
  rfl

theorem option_all_imp {o : Option Char} {p : Char → Bool} (h : o.all p = true) :
    ∀ x ∈ o, p x = true := by
  cases o with
  | none => intro x hx; simp at hx
  | some a =>
    intro x hx
    simp only [Option.mem_def, Option.some.injEq] at hx
    subst hx
    simpa [Option.all] using h

theorem validateEmailTrimmed_canonical {l d : GoStr} (hl : DotAtomOk l) (hd : DotAtomOk d)
    (hlen : utf8Len (l ++ '@' :: d) ≤ 254)
    (hl1 : 1 ≤ utf8Len l) (hl64 : utf8Len l ≤ 64)
    (hd1 : 1 ≤ utf8Len d) (hd255 : utf8Len d ≤ 255)
    (hdot : '.' ∈ d)
    (hfix : (l ++ '@' :: d).map Char.toLower = l ++ '@' :: d) :
    validateEmailTrimmed (l ++ '@' :: d) = (l ++ '@' :: d, none) := by
  have hlA : '@' ∉ l := fun hm => isAtext_ne_at (hl.2.1 '@' hm) rfl
  have hdA : '@' ∉ d := fun hm => isAtext_ne_at (hd.2.1 '@' hm) rfl
  have hie : (l ++ '@' :: d).isEmpty = false := by
    cases l <;> rfl
  unfold validateEmailTrimmed
  rw [if_neg (by simp [hie])]
  rw [if_neg (by omega)]
  rw [goParseAddress_canonical hl hd]
  dsimp only
  rw [splitOnAt_pair_of hlA hdA]
  have hc1 : (utf8Len l == 0 || decide (64 < utf8Len l)) = false := by
    simp only [Bool.or_eq_false_iff, beq_eq_false_iff_ne, decide_eq_false_iff_not]
    exact ⟨by omega, by omega⟩
  have hc2 : (utf8Len d == 0 || decide (255 < utf8Len d)) = false := by
    simp only [Bool.or_eq_false_iff, beq_eq_false_iff_ne, decide_eq_false_iff_not]
    exact ⟨by omega, by omega⟩
  have hc3 : (!(d.contains '.')) = false := by
    rw [(goContains_iff d '.').mpr hdot]
    rfl
  simp only [hc1, hc2, hc3, Bool.false_eq_true, if_false]
  rw [hfix]

theorem takeWhile_not_at {l d : GoStr} (hlA : '@' ∉ l) :
    ((l ++ '@' :: d).takeWhile (fun x => !(x == '@'))) = l ∧
    (((l ++ '@' :: d).dropWhile (fun x => !(x == '@'))).drop 1) = d := by
  have hall : ∀ x ∈ l, (!(x == '@')) = true := by
    intro x hx
    simp only [Bool.not_eq_true']
    rw [beq_eq_false_iff_ne]
    exact fun he => hlA (he ▸ hx)
  obtain ⟨ht, hd2⟩ := takeWhile_append_of_all (r := '@' :: d) hall
  constructor
  · rw [ht, List.takeWhile_cons]
    simp
  · rw [hd2, List.dropWhile_cons]
    simp

set_option maxRecDepth 40000 in
/-- Claim C2 (counterexample): `normalize` of the quoted address
`" a"@example.com` succeeds with the canonical value `" a@example.com"`, but
normalizing that canonical value again succeeds with the different value
`"a@example.com"` (the surrounding trim removes the space that the quoted
local part legitimately contained), so canonicalization is not idempotent as
claimed. -/
theorem c2_counterexample :
    validateEmail (String.toList "\" a\"@example.com") =
      (String.toList " a@example.com", none) ∧
    validateEmail (String.toList " a@example.com") =
      (String.toList "a@example.com", none) ∧
    String.toList "a@example.com" ≠ String.toList " a@example.com" :=
  ⟨by decide, by decide, by decide⟩

/-- Claim C2 (amended): re-normalization is the identity on every canonical
result whose local part and domain are plain dot-atoms and which neither
begins nor ends with Unicode white space: if `validateEmail s = (c, none)`
and `c` has that shape, then `validateEmail c = (c, none)`.  (The original
unconditional idempotence fails exactly when the canonical value needs
quoting or trimming again, as in the counterexample.) -/
theorem c2_idempotent_on_dot_atoms {s c : GoStr}
    (h : validateEmail s = (c, none))
    (hloc : DotAtomOk (c.takeWhile (fun x => !(x == '@'))))
    (hdom : DotAtomOk ((c.dropWhile (fun x => !(x == '@'))).drop 1))
    (hhead : c.head?.all (fun x => !goIsSpace x) = true)
    (hlast : c.getLast?.all (fun x => !goIsSpace x) = true) :
    validateEmail c = (c, none) := by
  unfold validateEmail at h
  obtain ⟨addr, lp0, dom0, hpar, hsplit, h254, hlp1, hlp64, hdom1, hdom255, hdot, hc⟩ :=
    validateEmailTrimmed_ok h
  obtain ⟨rfl, hlpA, hdomA⟩ := splitOnAt_eq_pair hsplit
  have hcdecomp : c = List.map Char.toLower lp0 ++ '@' :: List.map Char.toLower dom0 := by
    rw [hc, List.map_append, List.map_cons]
    rfl
  have hlpA2 : '@' ∉ List.map Char.toLower lp0 := not_mem_at_map_toLower hlpA
  have hdomA2 : '@' ∉ List.map Char.toLower dom0 := not_mem_at_map_toLower hdomA
  obtain ⟨htw, hdw⟩ := takeWhile_not_at (d := List.map Char.toLower dom0) hlpA2
  rw [hcdecomp, htw] at hloc
  rw [hcdecomp, hdw] at hdom
  have hsz := goParseAddress_size hpar
  have e1 : utf8Len (List.map Char.toLower lp0) = utf8Len lp0 := utf8Len_map_toLower lp0
  have e2 : utf8Len (List.map Char.toLower dom0) = utf8Len dom0 := utf8Len_map_toLower dom0
  have e3 : utf8Len c = utf8Len (lp0 ++ '@' :: dom0) := by
    rw [hc, utf8Len_map_toLower]
  have esplit : utf8Len (lp0 ++ '@' :: dom0) = utf8Len lp0 + 1 + utf8Len dom0 := by
    rw [utf8Len_append, utf8Len_cons, show Char.utf8Size '@' = 1 from rfl]
    omega
  have htrim : goTrimSpace c = c := by
    apply goTrimSpace_eq_self
    · intro x hx
      have := option_all_imp hhead x hx
      simpa using this
    · intro x hx
      have := option_all_imp hlast x hx
      simpa using this
  unfold validateEmail
  rw [htrim, hcdecomp]
  apply validateEmailTrimmed_canonical hloc hdom
  · rw [← hcdecomp, e3]
    omega
  · rw [e1]; omega
  · rw [e1]; omega
  · rw [e2]; omega
  · rw [e2]; omega
  · exact List.mem_map.mpr ⟨'.', hdot, rfl⟩
  · rw [← hcdecomp, hc]
    exact map_toLower_idem _

set_option maxRecDepth 40000 in
/-- Claim C2 witness: `A@B.com` canonicalizes to `a@b.com`, whose parts are
dot-atoms, and re-normalizing `a@b.com` returns it unchanged. -/
theorem c2_idempotent_witness :
    validateEmail (String.toList "a@b.com") = (String.toList "a@b.com", none) :=
  @c2_idempotent_on_dot_atoms (String.toList "A@B.com") (String.toList "a@b.com")
    (by decide) (by decide) (by decide) (by decide) (by decide)
